import Mathlib

/-!
Verification development for the joebot-markov-chain library: a shallow
embedding of the chain data model (chain.rs), ingestion (append.rs) and
generation (generate.rs), followed by theorems about the embedded code.

Conventions of the embedding:
* Rust `u32`/`usize` word ids and counts become `Nat` (no arithmetic in the
  code can overflow in a way any theorem below depends on).
* `IndexSet<String>` becomes a duplicate-free, insertion-ordered
  `List String`; `insert_full` is modelled by `insertFull` below.
* The Rust field named `prefix` is called `pfx` here because `prefix` is a
  reserved word in Lean; the type `ChainPrefix` is likewise called
  `ChainPfx`.
* File reading (`append_text` takes a path) and the HTML event reader
  (`fold_html`) are external collaborators: `appendText` receives the text
  directly, and `appendMessageDump` receives the already-decoded event list.
* Randomness: the caller-supplied `Rng` is modelled as a stream (list) of
  natural numbers; a uniform draw from a slice of length `n` consumes one
  number `r` from the stream and picks index `r % n`.  Every possible
  sequence of uniform draws is realised by some stream, so quantifying over
  all streams quantifies over all random sources.
-/

/-- Struct `Datestamp` from chain.rs: `{year: i16, day: u16}`.  The year is modelled
as `Int`, the day as `Nat`. -/
structure Datestamp where
  year : Int
  day : Nat
deriving DecidableEq

/-- Modelled from the spec: `Datestamp` is "comparable by lexicographic order
`(year, day)`" (the `PartialOrd` derive on the current `Datestamp` is not
under src/, only its use in generate.rs is; the derived order on a Rust
struct is exactly the lexicographic order of its fields). -/
def dsLe (a b : Datestamp) : Bool :=
  decide (a.year < b.year ∨ (a.year = b.year ∧ a.day ≤ b.day))

/-- Modelled from the spec: the packed suffix of chain.rs ("suffix: word id +
terminal flag ... packed into a single 32-bit value (flag in the high bit)
purely as a space optimization; logically they are two independent fields:
`suffix_word_id` and `is_terminal: bool`").  The two logical fields are kept
separate, as the spec explicitly sanctions. -/
structure ChainSuffix where
  word_idx : Nat
  is_terminal : Bool
deriving DecidableEq

/-- Constructor `ChainSuffix::terminal`. -/
def ChainSuffix.terminal (w : Nat) : ChainSuffix := ⟨w, true⟩

/-- Constructor `ChainSuffix::nonterminal`. -/
def ChainSuffix.nonterminal (w : Nat) : ChainSuffix := ⟨w, false⟩

/-- Modelled from the spec: the prefix of a record is an "ordered fixed-length
sequence of N word ids (N=2)" together with the recorded "starting" boundary
flag ("this flag is recorded on the record ... but is not consumed by the
Generator").  append.rs builds it with `ChainPrefix::starting` /
`ChainPrefix::nonstarting`; generate.rs reads only the two word ids. -/
structure ChainPfx where
  word_idxs : Nat × Nat
  is_starting : Bool
deriving DecidableEq

/-- Constructor `ChainPrefix::starting`. -/
def ChainPfx.starting (ws : Nat × Nat) : ChainPfx := ⟨ws, true⟩

/-- Constructor `ChainPrefix::nonstarting`. -/
def ChainPfx.nonstarting (ws : Nat × Nat) : ChainPfx := ⟨ws, false⟩

/-- Struct `ChainEntry` from chain.rs (the Rust field `prefix` is `pfx` here). -/
structure ChainEntry where
  pfx : ChainPfx
  suffix : ChainSuffix
  datestamp : Datestamp
deriving DecidableEq

/-- Struct `TextSource` from chain.rs; the `IndexSet<String>` of alias names is a
duplicate-free insertion-ordered list. -/
structure TextSource where
  names : List String
  entries : List ChainEntry
deriving DecidableEq

/-- Struct `MarkovChain` from chain.rs; the vocabulary `words : IndexSet<String>` is
a duplicate-free insertion-ordered list, a word id is its index. -/
structure MarkovChain where
  words : List String
  sources : List TextSource
deriving DecidableEq

/-- Constant `NGRAM_CNT` from chain.rs. -/
def NGRAM_CNT : Nat := 2

/-- Constant `MAX_TRIES` from generate.rs. -/
def MAX_TRIES : Nat := 20

/-- Index of the first occurrence of `w` in the vocabulary list (the id that
`IndexSet::insert_full` reports for an already-present word). -/
def internIdx (w : String) : List String → Nat
  | [] => 0
  | x :: xs => if x = w then 0 else internIdx w xs + 1

/-- Operation `IndexSet::insert_full`: returns the existing index if present, otherwise
appends the word and returns the fresh index (= previous length). -/
def insertFull (w : String) (words : List String) : Nat × List String :=
  if w ∈ words then (internIdx w words, words) else (words.length, words ++ [w])

/-- Interning of a whole token list, threading the vocabulary through
(the `map` over `split` in `push_text_entries`). -/
def internWords : List String → List String → List Nat × List String
  | [], words => ([], words)
  | t :: ts, words =>
    let r1 := insertFull t words
    let r2 := internWords ts r1.2
    (r1.1 :: r2.1, r2.2)

/-- Character-level splitter: `str::split` with a char predicate, which yields
the (possibly empty) substrings between separator characters. -/
def splitP (p : Char → Bool) : List Char → List (List Char)
  | [] => [[]]
  | c :: cs =>
    if p c then [] :: splitP p cs
    else
      match splitP p cs with
      | [] => [[c]]
      | w :: ws => (c :: w) :: ws

/-- The separator predicate of `push_text_entries`: `&[' ', '\n'][..]`. -/
def isSpaceNl (c : Char) : Bool := c == ' ' || c == '\n'

/-- Tokenization of `push_text_entries`: split on space/newline, drop empty
tokens. -/
def tokenize (text : String) : List String :=
  ((splitP isSpaceNl text.toList).map (fun l => l.asString)).filter (fun w => w != "")

/-- Number of whitespace-separated words in a string (used to state claims
about output word counts). -/
def wordCount (s : String) : Nat := (tokenize s).length

/-- Test `ends_with(|c| c == '.' || c == '?' || c == '!')` on a word: true iff its
last character is a sentence terminator. -/
def endsSentence (w : String) : Bool :=
  match w.toList.getLast? with
  | some c => c == '.' || c == '?' || c == '!'
  | none => false

/-- Windows `word_indexes.windows(NGRAM_CNT + 1)` specialised to width 3. -/
def windows3 : List Nat → List (Nat × Nat × Nat)
  | a :: b :: c :: rest => (a, b, c) :: windows3 (b :: c :: rest)
  | _ => []

/-- The terminal classification of one window in `push_text_entries`: with
`treat_ending_punctuation_as_terminal` set, terminal iff the suffix word's
text ends with `.`, `?` or `!`; otherwise terminal iff the window equals (as
a value) the final window `last_ngram`. -/
def entryTerminal (words : List String) (punct : Bool) (lastNgram : List Nat)
    (w : Nat × Nat × Nat) : Bool :=
  if punct then endsSentence ((words.get? w.2.2).getD "")
  else decide ([w.1, w.2.1, w.2.2] = lastNgram)

/-- The window loop of `push_text_entries`: one `ChainEntry` per window, the
`starting` flag of each window being the previous window's terminal flag
(`true` initially). -/
def mkEntries (words : List String) (punct : Bool) (d : Datestamp)
    (lastNgram : List Nat) : Bool → List (Nat × Nat × Nat) → List ChainEntry
  | _, [] => []
  | st, w :: ws =>
    ChainEntry.mk (ChainPfx.mk (w.1, w.2.1) st)
        (ChainSuffix.mk w.2.2 (entryTerminal words punct lastNgram w)) d
      :: mkEntries words punct d lastNgram (entryTerminal words punct lastNgram w) ws

/-- Function `push_text_entries` from append.rs: tokenize, intern, and if at least
`NGRAM_CNT + 1` ids were produced, append one entry per width-3 window.
Returns the new entry list and the new vocabulary. -/
def pushTextEntries (text : String) (d : Datestamp) (entries : List ChainEntry)
    (words : List String) (punct : Bool) : List ChainEntry × List String :=
  let r := internWords (tokenize text) words
  if r.1.length < NGRAM_CNT + 1 then (entries, r.2)
  else
    (entries ++ mkEntries r.2 punct d (r.1.drop (r.1.length - (NGRAM_CNT + 1))) true (windows3 r.1),
     r.2)

/-- Predicate `names.iter().any(|n| s.names.contains(n))` from `source_by_names`. -/
def srcMatches (s : TextSource) (names : List String) : Bool :=
  names.any (fun n => decide (n ∈ s.names))

/-- One `IndexSet` insertion (membership test, append if new). -/
def indexSetInsert (s : List String) (x : String) : List String :=
  if x ∈ s then s else s ++ [x]

/-- Operation `IndexSet::from_iter`: first-occurrence deduplication, insertion order. -/
def fromIter (names : List String) : List String := names.foldl indexSetInsert []

/-- Function `source_by_names` from append.rs: position of the first source whose alias
set intersects `names`; if none, push a new source whose alias set is
`IndexSet::from_iter(names)` and use its index.  Returns the (possibly
extended) source list and the resolved index. -/
def sourceByNames : List TextSource → List String → List TextSource × Nat
  | [], names => ([TextSource.mk (fromIter names) []], 0)
  | s :: rest, names =>
    if srcMatches s names then (s :: rest, 0)
    else
      let r := sourceByNames rest names
      (s :: r.1, r.2 + 1)

/-- The shared body of `append_text` / `append_message`: resolve the source,
run `push_text_entries` on its entries and the chain's vocabulary, and write
both back. -/
def MarkovChain.appendBody (chain : MarkovChain) (text : String) (names : List String)
    (d : Datestamp) (punct : Bool) : MarkovChain :=
  let r := sourceByNames chain.sources names
  let src := (r.1.get? r.2).getD (TextSource.mk [] [])
  let pe := pushTextEntries text d src.entries chain.words punct
  MarkovChain.mk pe.2 (r.1.set r.2 (TextSource.mk src.names pe.1))

/-- Function `append_text` from append.rs (the file read is a collaborator: the text is
passed directly).  Note it passes `treat_ending_punctuation_as_terminal =
true`. -/
def appendText (chain : MarkovChain) (text : String) (sourceNames : List String)
    (d : Datestamp) : MarkovChain :=
  chain.appendBody text sourceNames d true

/-- Struct `ExtractedMessage` from append.rs. -/
structure ExtractedMessage where
  names : List String
  datestamp : Datestamp
  body : String
deriving DecidableEq

/-- Value `Default::default()` for `ExtractedMessage`. -/
def emptyMessage : ExtractedMessage := ⟨[], ⟨0, 0⟩, ""⟩

/-- Function `append_message` from append.rs.  Note it passes
`treat_ending_punctuation_as_terminal = false`. -/
def appendMessage (chain : MarkovChain) (msg : ExtractedMessage) : MarkovChain :=
  chain.appendBody msg.body msg.names msg.datestamp false

/-- Modelled from the spec: the events yielded by the external message-dump
reader (`vkopt_message_parser::reader::MessageEvent`).  The date event
carries the already-converted `{year, ordinal-day}` datestamp, since the date
string and `chrono` parsing are a collaborator concern. -/
inductive MessageEvent where
  | start : Nat → MessageEvent
  | fullNameExtracted : String → MessageEvent
  | shortNameExtracted : String → MessageEvent
  | dateExtracted : Datestamp → MessageEvent
  | bodyPartExtracted : String → MessageEvent
  | other : MessageEvent
deriving DecidableEq

/-- The folding closure of `append_message_dump`: `Start(0)` flushes the
accumulated message (only if its body is non-empty) and resets the
accumulator; name/date/body events accumulate; everything else is ignored. -/
def foldStep (acc : MarkovChain × ExtractedMessage) :
    MessageEvent → MarkovChain × ExtractedMessage
  | MessageEvent.start 0 =>
    (if acc.2.body ≠ "" then appendMessage acc.1 acc.2 else acc.1, emptyMessage)
  | MessageEvent.fullNameExtracted n =>
    (acc.1, ExtractedMessage.mk (acc.2.names ++ [n]) acc.2.datestamp acc.2.body)
  | MessageEvent.shortNameExtracted n =>
    (acc.1, ExtractedMessage.mk (acc.2.names ++ [n]) acc.2.datestamp acc.2.body)
  | MessageEvent.dateExtracted d =>
    (acc.1, ExtractedMessage.mk acc.2.names d acc.2.body)
  | MessageEvent.bodyPartExtracted b =>
    (acc.1, ExtractedMessage.mk acc.2.names acc.2.datestamp (acc.2.body ++ b))
  | _ => acc

/-- Function `append_message_dump` from append.rs over a decoded event list: fold the
closure over the events, then flush the final in-flight message if its body
is non-empty. -/
def appendMessageDump (chain : MarkovChain) (events : List MessageEvent) : MarkovChain :=
  let r := events.foldl foldStep (chain, emptyMessage)
  if r.2.body ≠ "" then appendMessage r.1 r.2 else r.1

/-- The caller-supplied random source, as a stream of draws. -/
abbrev Rng := List Nat

/-- Operation `SliceRandom::choose`: `None` on an empty slice (consuming no randomness),
otherwise a uniform index draw; the draw `r` from the stream selects index
`r % len`. -/
def sliceChoose {α : Type} : List α → Rng → Option (α × Rng)
  | [], _ => none
  | a :: t, rng => some ((a :: t).getD (rng.headD 0 % (a :: t).length) a, rng.tail)

/-- Pool `sources.into_iter().flat_map(|s| &s.entries)` from generate.rs. -/
def allEntries (srcs : List TextSource) : List ChainEntry :=
  srcs.foldr (fun s acc => s.entries ++ acc) []

/-- Function `seq_to_text` from generate.rs: resolve each id in the vocabulary,
silently dropping ids that do not resolve, and join with single spaces. -/
def seqToText (seq : List Nat) (words : List String) : String :=
  String.intercalate " " (seq.filterMap (fun i => words.get? i))

/-- The inner `loop` of `generate_sequence`: extend the buffer with the
current edge's prefix words; succeed (appending the suffix word) if the
buffer holds at least `min_words` words and the edge is terminal; abandon if
the buffer has reached `max_words`; otherwise draw the next edge among those
whose first prefix word equals the current suffix word (abandon if none).
The `fuel` argument only bounds the recursion; since every iteration grows
the buffer by 2 and iterates only while its length is below `maxW`, any fuel
of at least `maxW + 2` (as supplied below) is never exhausted. -/
def walk (edges : List ChainEntry) (minW maxW : Nat) :
    Nat → List Nat → ChainEntry → Rng → Option (List Nat) × Rng
  | 0, _, _, rng => (none, rng)
  | Nat.succ fuel, g, e, rng =>
    let g1 := g ++ [e.pfx.word_idxs.1, e.pfx.word_idxs.2]
    if minW ≤ g1.length ∧ e.suffix.is_terminal = true then
      (some (g1 ++ [e.suffix.word_idx]), rng)
    else if maxW ≤ g1.length then (none, rng)
    else
      match sliceChoose (edges.filter (fun e2 => e2.pfx.word_idxs.1 == e.suffix.word_idx)) rng with
      | none => (none, rng)
      | some (e2, rng2) => walk edges minW maxW fuel g1 e2 rng2

/-- The retry loop of `generate_sequence`.  The Rust
`edges.choose(rng).unwrap()` panics when `edges` is empty; that panic is made
visible as the outer `none` (so `some r` means "no panic, result `r`"). -/
def generateSequenceE (edges : List ChainEntry) (minW maxW : Nat) :
    Nat → Rng → Option (Option (List Nat))
  | 0, _ => some none
  | Nat.succ tries, rng =>
    match sliceChoose edges rng with
    | none => none
    | some (e, rng1) =>
      match walk edges minW maxW (maxW + 2) [] e rng1 with
      | (some out, _) => some (some out)
      | (none, rng2) => generateSequenceE edges minW maxW tries rng2

/-- Function `generate` from generate.rs: flatten the sources' entries; if the pool is
non-empty, run the retry loop and resolve a successful sequence to text.  The
panic branch of the retry loop is mapped to `none` (it is proved unreachable
below). -/
def generate (chain : MarkovChain) (rng : Rng) (srcs : List TextSource)
    (minW maxW : Nat) : Option String :=
  let edges := allEntries srcs
  if edges.isEmpty then none
  else
    match generateSequenceE edges minW maxW MAX_TRIES rng with
    | some r => r.map (fun seq => seqToText seq chain.words)
    | none => none

/-- The date filter of `generate_in_date_range`:
`e.datestamp >= date_range.0 && e.datestamp <= date_range.1`. -/
def inRangeB (r : Datestamp × Datestamp) (e : ChainEntry) : Bool :=
  dsLe r.1 e.datestamp && dsLe e.datestamp r.2

/-- Function `generate_in_date_range` from generate.rs: like `generate`, but the pool
is filtered by the inclusive datestamp range before the emptiness check. -/
def generateInDateRange (chain : MarkovChain) (rng : Rng) (srcs : List TextSource)
    (r : Datestamp × Datestamp) (minW maxW : Nat) : Option String :=
  let edges := (allEntries srcs).filter (inRangeB r)
  if edges.isEmpty then none
  else
    match generateSequenceE edges minW maxW MAX_TRIES rng with
    | some r2 => r2.map (fun seq => seqToText seq chain.words)
    | none => none

/-- The token ids produced by ingesting `text` over vocabulary `words`
(the `word_indexes` vector of `push_text_entries`). -/
def ingestIds (text : String) (words : List String) : List Nat :=
  (internWords (tokenize text) words).1

/-- The vocabulary after ingesting `text` over vocabulary `words`. -/
def ingestVocab (text : String) (words : List String) : List String :=
  (internWords (tokenize text) words).2

/-! ### Concrete models used by witnesses and counterexamples -/

/-- A 3-word chain with one terminal record, for exercising the
`max_words` boundary. -/
def c2Chain : MarkovChain :=
  MarkovChain.mk ["a", "b", "c"]
    [TextSource.mk ["n"]
      [ChainEntry.mk (ChainPfx.nonstarting (0, 1)) (ChainSuffix.terminal 2) ⟨0, 0⟩]]

/-- A chain whose vocabulary is empty while a record references ids 0..2,
so no generated id resolves. -/
def c3Chain : MarkovChain :=
  MarkovChain.mk []
    [TextSource.mk ["n"]
      [ChainEntry.mk (ChainPfx.nonstarting (0, 1)) (ChainSuffix.terminal 2) ⟨0, 0⟩]]

/-- A fully-resolvable 3-word chain with one terminal record. -/
def c3wChain : MarkovChain :=
  MarkovChain.mk ["a", "b", "c"]
    [TextSource.mk ["w"]
      [ChainEntry.mk (ChainPfx.nonstarting (0, 1)) (ChainSuffix.terminal 2) ⟨0, 0⟩]]

/-- A chain with one record stamped 2018, day 21, for date-range tests. -/
def c6Chain : MarkovChain :=
  MarkovChain.mk ["a", "b", "c"]
    [TextSource.mk ["d"]
      [ChainEntry.mk (ChainPfx.nonstarting (0, 1)) (ChainSuffix.terminal 2) ⟨2018, 21⟩]]

/-- The chain of the spec's §8 example (and of the
`test_determined_generation` test): six Russian words, three chained
records, the terminal record's suffix id 6 resolving to nothing. -/
def c8Chain : MarkovChain :=
  MarkovChain.mk ["сегодня", "у", "меня", "депрессия", "с", "собаками"]
    [TextSource.mk ["дана"]
      [ChainEntry.mk (ChainPfx.nonstarting (0, 1)) (ChainSuffix.nonterminal 2) ⟨2070, 360⟩,
       ChainEntry.mk (ChainPfx.nonstarting (4, 5)) (ChainSuffix.terminal 6) ⟨2070, 360⟩],
     TextSource.mk ["джилл"]
      [ChainEntry.mk (ChainPfx.nonstarting (2, 3)) (ChainSuffix.nonterminal 4) ⟨2070, 360⟩]]

/-- A single record, for exercising the non-empty-pool precondition. -/
def c9Entry : ChainEntry :=
  ChainEntry.mk (ChainPfx.nonstarting (0, 1)) (ChainSuffix.terminal 2) ⟨0, 0⟩

/-! ### Lemmas about interning -/

theorem internWords_cons (t : String) (ts words : List String) :
    internWords (t :: ts) words =
      ((insertFull t words).1 :: (internWords ts (insertFull t words).2).1,
        (internWords ts (insertFull t words).2).2) := rfl

theorem internWords_length (ts ws : List String) :
    (internWords ts ws).1.length = ts.length := by
  induction ts generalizing ws with
  | nil => rfl
  | cons t ts ih => simp [internWords, ih]

theorem insertFull_append_only (w : String) (ws : List String) :
    ∃ ext, (insertFull w ws).2 = ws ++ ext := by
  unfold insertFull
  split
  · exact ⟨[], by simp⟩
  · exact ⟨[w], rfl⟩

theorem internWords_append_only (ts ws : List String) :
    ∃ ext, (internWords ts ws).2 = ws ++ ext := by
  induction ts generalizing ws with
  | nil => exact ⟨[], by simp [internWords]⟩
  | cons t ts ih =>
    obtain ⟨e1, h1⟩ := insertFull_append_only t ws
    obtain ⟨e2, h2⟩ := ih (insertFull t ws).2
    refine ⟨e1 ++ e2, ?_⟩
    rw [internWords_cons, h2, h1, List.append_assoc]

theorem internIdx_append (w : String) (l ext : List String) (h : w ∈ l) :
    internIdx w (l ++ ext) = internIdx w l := by
  induction l with
  | nil => cases h
  | cons x xs ih =>
    by_cases hx : x = w
    · simp [internIdx, hx]
    · have : w ∈ xs := by
        cases h with
        | head => exact absurd rfl hx
        | tail _ h => exact h
      simp [internIdx, hx, ih this]

theorem internIdx_append_self (w : String) (l : List String) (h : w ∉ l) :
    internIdx w (l ++ [w]) = l.length := by
  induction l with
  | nil => simp [internIdx]
  | cons x xs ih =>
    have hx : x ≠ w := fun he => h (he ▸ List.mem_cons_self x xs)
    have : w ∉ xs := fun hm => h (List.mem_cons_of_mem x hm)
    simp [internIdx, hx, ih this]

theorem insertFull_mem (w : String) (ws : List String) : w ∈ (insertFull w ws).2 := by
  unfold insertFull
  split
  · assumption
  · simp

theorem insertFull_idx (w : String) (ws : List String) :
    (insertFull w ws).1 = internIdx w ((insertFull w ws).2) := by
  unfold insertFull
  split
  · rfl
  · exact (internIdx_append_self w ws (by assumption)).symm

theorem internWords_get (ts : List String) (ws : List String) (j : Nat) (t : String)
    (h : ts.get? j = some t) :
    ((internWords ts ws).1).get? j = some (internIdx t (internWords ts ws).2) ∧
      t ∈ (internWords ts ws).2 := by
  induction ts generalizing ws j with
  | nil => simp at h
  | cons u ts ih =>
    cases j with
    | zero =>
      have ht : u = t := by simpa using h
      subst ht
      obtain ⟨ext, hext⟩ := internWords_append_only ts (insertFull u ws).2
      have hm : u ∈ (internWords ts (insertFull u ws).2).2 := by
        rw [hext]; exact List.mem_append_left _ (insertFull_mem u ws)
      constructor
      · simp only [internWords, List.get?]
        rw [hext, internIdx_append u _ ext (insertFull_mem u ws), ← insertFull_idx]
      · simpa [internWords] using hm
    | succ j =>
      have h' : ts.get? j = some t := by simpa using h
      have := ih (insertFull u ws).2 j h'
      simpa [internWords] using this

theorem internWords_not_mem (ts ws : List String) (x : String)
    (hws : x ∉ ws) (hts : ∀ t ∈ ts, t ≠ x) : x ∉ (internWords ts ws).2 := by
  induction ts generalizing ws with
  | nil => simpa [internWords] using hws
  | cons t ts ih =>
    have h1 : x ∉ (insertFull t ws).2 := by
      unfold insertFull
      split
      · exact hws
      · intro hm
        rcases List.mem_append.1 hm with h | h
        · exact hws h
        · exact hts t (List.mem_cons_self t ts) ((List.mem_singleton.mp h).symm)
    have := ih (insertFull t ws).2 h1 (fun u hu => hts u (List.mem_cons_of_mem t hu))
    simpa [internWords] using this

theorem tokenize_ne_empty (text : String) (w : String) (h : w ∈ tokenize text) :
    w ≠ "" := by
  unfold tokenize at h
  have := List.of_mem_filter h
  simpa using this

/-! ### Lemmas about the sliding window and entry construction -/

theorem windows3_length (l : List Nat) : (windows3 l).length = l.length - 2 := by
  match l with
  | [] => rfl
  | [a] => rfl
  | [a, b] => rfl
  | a :: b :: c :: rest =>
    have ih := windows3_length (b :: c :: rest)
    simp [windows3] at ih ⊢
    omega

theorem windows3_get (l : List Nat) (k : Nat) (a b c : Nat)
    (ha : l.get? k = some a) (hb : l.get? (k + 1) = some b)
    (hc : l.get? (k + 2) = some c) :
    (windows3 l).get? k = some (a, b, c) := by
  match l, k with
  | [], k => simp at ha
  | [x], k =>
    have : k + 2 < 1 := (List.get?_eq_some.mp hc).1
    omega
  | [x, y], k =>
    have : k + 2 < 2 := (List.get?_eq_some.mp hc).1
    omega
  | x :: y :: z :: rest, 0 =>
    simp at ha hb hc
    simp [windows3, ha, hb, hc]
  | x :: y :: z :: rest, Nat.succ k =>
    have ih := windows3_get (y :: z :: rest) k a b c (by simpa using ha)
      (by simpa using hb) (by simpa using hc)
    simpa [windows3] using ih

theorem mkEntries_length (words : List String) (punct : Bool) (d : Datestamp)
    (lastNgram : List Nat) (st : Bool) (ws : List (Nat × Nat × Nat)) :
    (mkEntries words punct d lastNgram st ws).length = ws.length := by
  induction ws generalizing st with
  | nil => rfl
  | cons w ws ih => simp [mkEntries, ih]

theorem mkEntries_get (words : List String) (punct : Bool) (d : Datestamp)
    (lastNgram : List Nat) (st : Bool) (ws : List (Nat × Nat × Nat))
    (k : Nat) (w : Nat × Nat × Nat) (h : ws.get? k = some w) :
    ∃ st2, (mkEntries words punct d lastNgram st ws).get? k =
      some (ChainEntry.mk (ChainPfx.mk (w.1, w.2.1) st2)
        (ChainSuffix.mk w.2.2 (entryTerminal words punct lastNgram w)) d) := by
  induction ws generalizing st k with
  | nil => simp at h
  | cons u ws ih =>
    cases k with
    | zero =>
      have : u = w := by simpa using h
      subst this
      exact ⟨st, by simp [mkEntries]⟩
    | succ k =>
      have h' : ws.get? k = some w := by simpa using h
      obtain ⟨st2, hst⟩ := ih (entryTerminal words punct lastNgram u) k h'
      exact ⟨st2, by simpa [mkEntries] using hst⟩

/-- Full characterization of `push_text_entries`: it always replaces the
vocabulary by the interned one; with fewer than 3 ids it appends nothing;
with `L ≥ 3` ids it appends exactly `L - 2` entries, the `k`-th appended
entry having prefix ids `(ids k, ids (k+1))`, suffix id `ids (k+2)`, the
supplied datestamp, and the mode-dependent terminal flag. -/
theorem pushTextEntries_spec (text : String) (d : Datestamp)
    (entries : List ChainEntry) (words : List String) (punct : Bool) :
    (pushTextEntries text d entries words punct).2 = (internWords (tokenize text) words).2 ∧
    ((internWords (tokenize text) words).1.length < 3 →
      (pushTextEntries text d entries words punct).1 = entries) ∧
    (3 ≤ (internWords (tokenize text) words).1.length →
      ∃ new, (pushTextEntries text d entries words punct).1 = entries ++ new ∧
        new.length = (internWords (tokenize text) words).1.length - 2 ∧
        ∀ k a b c, (internWords (tokenize text) words).1.get? k = some a →
          (internWords (tokenize text) words).1.get? (k + 1) = some b →
          (internWords (tokenize text) words).1.get? (k + 2) = some c →
          ∃ st2, new.get? k = some (ChainEntry.mk (ChainPfx.mk (a, b) st2)
            (ChainSuffix.mk c (entryTerminal (internWords (tokenize text) words).2 punct
              ((internWords (tokenize text) words).1.drop
                ((internWords (tokenize text) words).1.length - 3)) (a, b, c))) d)) := by
  unfold pushTextEntries
  simp only [NGRAM_CNT]
  constructor
  · split <;> rfl
  constructor
  · intro h
    split
    · rfl
    · omega
  · intro h
    split
    · omega
    · refine ⟨_, rfl, ?_, ?_⟩
      · rw [mkEntries_length, windows3_length]
      · intro k a b c ha hb hc
        have hw := windows3_get _ k a b c ha hb hc
        exact mkEntries_get _ punct d _ true _ k (a, b, c) hw

/-! ### Lemmas about source resolution -/

theorem sourceByNames_lt (sources : List TextSource) (names : List String) :
    (sourceByNames sources names).2 < (sourceByNames sources names).1.length := by
  induction sources with
  | nil => simp [sourceByNames]
  | cons s rest ih =>
    unfold sourceByNames
    split
    · simp
    · simpa using ih

theorem sourceByNames_found (sources : List TextSource) (names : List String)
    (h : ∃ s ∈ sources, srcMatches s names = true) :
    (sourceByNames sources names).1 = sources ∧
    (∃ s, sources.get? (sourceByNames sources names).2 = some s ∧
      srcMatches s names = true) ∧
    (∀ j s2, j < (sourceByNames sources names).2 → sources.get? j = some s2 →
      srcMatches s2 names = false) := by
  induction sources with
  | nil => simp at h
  | cons s rest ih =>
    by_cases hs : srcMatches s names = true
    · refine ⟨by simp [sourceByNames, hs], ⟨s, by simp [sourceByNames, hs], hs⟩, ?_⟩
      intro j s2 hj
      simp [sourceByNames, hs] at hj
    · have h' : ∃ s2 ∈ rest, srcMatches s2 names = true := by
        rcases h with ⟨s2, hmem, hm⟩
        rcases List.mem_cons.mp hmem with rfl | hmem2
        · exact absurd hm hs
        · exact ⟨s2, hmem2, hm⟩
      obtain ⟨ih1, ⟨s2, hget, hm2⟩, ihmin⟩ := ih h'
      refine ⟨by simp [sourceByNames, hs, ih1], ⟨s2, ?_, hm2⟩, ?_⟩
      · simpa [sourceByNames, hs] using hget
      · intro j s3 hj hget3
        cases j with
        | zero =>
          have : s3 = s := by simpa using hget3.symm
          subst this
          exact Bool.not_eq_true _ ▸ (by simpa using hs)
        | succ j =>
          have hj' : j < (sourceByNames rest names).2 := by
            simpa [sourceByNames, hs] using hj
          exact ihmin j s3 hj' (by simpa using hget3)

theorem sourceByNames_notfound (sources : List TextSource) (names : List String)
    (h : ∀ s ∈ sources, srcMatches s names = false) :
    sourceByNames sources names =
      (sources ++ [TextSource.mk (fromIter names) []], sources.length) := by
  induction sources with
  | nil => simp [sourceByNames]
  | cons s rest ih =>
    have hs : ¬ srcMatches s names = true := by
      simp [h s (List.mem_cons_self s rest)]
    have := ih (fun s2 hm => h s2 (List.mem_cons_of_mem s hm))
    simp [sourceByNames, hs, this]

theorem list_set_getD_self {α : Type} (l : List α) (i : Nat) (d : α)
    (h : i < l.length) : l.set i ((l.get? i).getD d) = l := by
  induction l generalizing i with
  | nil => simp at h
  | cons x xs ih =>
    cases i with
    | zero => simp
    | succ i =>
      have hih := ih i (by simpa using h)
      simp only [List.get?_eq_getElem?] at hih
      simp [hih]

theorem list_map_set_eq {α β : Type} (l : List α) (i : Nat) (v : α) (f : α → β)
    (h : ∀ s, l.get? i = some s → f v = f s) :
    (l.set i v).map f = l.map f := by
  induction l generalizing i with
  | nil => simp
  | cons x xs ih =>
    cases i with
    | zero => simp [h x (by simp)]
    | succ i =>
      simp only [List.set_cons_succ, List.map_cons, List.cons.injEq, true_and]
      exact ih i (fun s hs => h s (by simpa using hs))

/-! ### Lemmas about `fromIter` -/

theorem mem_foldl_indexSetInsert (l : List String) (s : List String) (x : String) :
    x ∈ l.foldl indexSetInsert s ↔ x ∈ s ∨ x ∈ l := by
  induction l generalizing s with
  | nil => simp
  | cons y ys ih =>
    have hy : x ∈ indexSetInsert s y ↔ x ∈ s ∨ x = y := by
      unfold indexSetInsert
      split
      · constructor
        · exact fun h => Or.inl h
        · rintro (h | rfl)
          · exact h
          · assumption
      · simp [or_comm]
    simp only [List.foldl_cons, ih, hy, List.mem_cons]
    tauto

theorem nodup_foldl_indexSetInsert (l : List String) (s : List String)
    (h : s.Nodup) : (l.foldl indexSetInsert s).Nodup := by
  induction l generalizing s with
  | nil => simpa
  | cons y ys ih =>
    refine ih _ ?_
    unfold indexSetInsert
    split
    · exact h
    · simpa [List.nodup_append] using ⟨h, by assumption⟩

theorem fromIter_mem (names : List String) (x : String) :
    x ∈ fromIter names ↔ x ∈ names := by
  unfold fromIter
  rw [mem_foldl_indexSetInsert]
  simp

theorem fromIter_nodup (names : List String) : (fromIter names).Nodup :=
  nodup_foldl_indexSetInsert names [] List.nodup_nil

/-! ### Lemmas about the random walk -/

theorem sliceChoose_mem {α : Type} (l : List α) (rng : Rng) (a : α) (rng2 : Rng)
    (h : sliceChoose l rng = some (a, rng2)) : a ∈ l := by
  match l with
  | [] => simp [sliceChoose] at h
  | x :: t =>
    simp only [sliceChoose, Option.some.injEq, Prod.mk.injEq] at h
    rw [← h.1]
    show (x :: t).getD _ x ∈ x :: t
    have hdef : (x :: t).getD (rng.headD 0 % (x :: t).length) x =
        ((x :: t).get? (rng.headD 0 % (x :: t).length)).getD x := rfl
    rw [hdef]
    rcases hg : (x :: t).get? (rng.headD 0 % (x :: t).length) with _ | v
    · simp
    · simpa using List.get?_mem hg

theorem walk_success (edges : List ChainEntry) (minW maxW : Nat) :
    ∀ fuel g e rng out rng2, e ∈ edges →
      walk edges minW maxW fuel g e rng = (some out, rng2) →
      ∃ e2 pre, e2 ∈ edges ∧ e2.suffix.is_terminal = true ∧
        out = pre ++ [e2.suffix.word_idx] ∧ minW ≤ pre.length ∧
        pre.length ≤ max (maxW + 1) (g.length + 2) := by
  intro fuel
  induction fuel with
  | zero =>
    intro g e rng out rng2 _ h
    simp [walk] at h
  | succ fuel ih =>
    intro g e rng out rng2 he h
    simp only [walk] at h
    split_ifs at h with h1 h2
    · simp only [Prod.mk.injEq, Option.some.injEq] at h
      refine ⟨e, g ++ [e.pfx.word_idxs.1, e.pfx.word_idxs.2], he, h1.2, h.1.symm, ?_, ?_⟩
      · simpa using h1.1
      · simp only [List.length_append, List.length_cons, List.length_nil]
        omega
    · simp at h
    · split at h
      · simp at h
      · rename_i e2 rng3 heq
        have he2 : e2 ∈ edges := by
          have := sliceChoose_mem _ _ _ _ heq
          exact (List.mem_filter.mp this).1
        obtain ⟨e3, pre, hmem, hterm, hout, hmin, hbound⟩ := ih _ _ _ _ _ he2 h
        refine ⟨e3, pre, hmem, hterm, hout, hmin, ?_⟩
        have hlt : (g ++ [e.pfx.word_idxs.1, e.pfx.word_idxs.2]).length < maxW := by
          omega
        simp only [List.length_append, List.length_cons, List.length_nil] at hbound hlt
        have : max (maxW + 1) (g.length + 2 + 2) = maxW + 1 := Nat.max_eq_left (by omega)
        rw [this] at hbound
        exact le_trans hbound (Nat.le_max_left _ _)

theorem gse_success (edges : List ChainEntry) (minW maxW : Nat) :
    ∀ tries rng out, generateSequenceE edges minW maxW tries rng = some (some out) →
      ∃ e2 pre, e2 ∈ edges ∧ e2.suffix.is_terminal = true ∧
        out = pre ++ [e2.suffix.word_idx] ∧ minW ≤ pre.length ∧
        pre.length ≤ max (maxW + 1) 2 := by
  intro tries
  induction tries with
  | zero =>
    intro rng out h
    simp [generateSequenceE] at h
  | succ tries ih =>
    intro rng out h
    simp only [generateSequenceE] at h
    split at h
    · simp at h
    · rename_i e rng1 heq
      split at h
      · rename_i out2 rng2 hw
        have he : e ∈ edges := sliceChoose_mem _ _ _ _ heq
        have hout : out2 = out := by simpa using h
        subst hout
        obtain ⟨e2, pre, hmem, hterm, ho, hmin, hb⟩ :=
          walk_success edges minW maxW _ _ _ _ _ _ he hw
        exact ⟨e2, pre, hmem, hterm, ho, hmin, by simpa using hb⟩
      · rename_i rng2 hw
        exact ih _ _ h

theorem gse_no_panic (edges : List ChainEntry) (minW maxW : Nat)
    (hne : edges ≠ []) :
    ∀ tries rng, ∃ r, generateSequenceE edges minW maxW tries rng = some r := by
  intro tries
  induction tries with
  | zero => intro rng; exact ⟨none, rfl⟩
  | succ tries ih =>
    intro rng
    match hedges : edges, hne with
    | e :: t, _ =>
      simp only [generateSequenceE, sliceChoose]
      split
    <;> rename_i hsplit
      · exact ⟨some _, rfl⟩
      · exact ih _

/-! ### Lemmas about `generate` / `generate_in_date_range` -/

theorem generate_some_elim (chain : MarkovChain) (rng : Rng) (srcs : List TextSource)
    (minW maxW : Nat) (s : String)
    (h : generate chain rng srcs minW maxW = some s) :
    ∃ seq, generateSequenceE (allEntries srcs) minW maxW MAX_TRIES rng = some (some seq) ∧
      s = seqToText seq chain.words := by
  simp only [generate] at h
  split at h
  · simp at h
  · split at h
    · rename_i r heq
      rcases r with _ | seq
      · simp at h
      · exact ⟨seq, heq, by simpa using h.symm⟩
    · simp at h

theorem gidr_some_elim (chain : MarkovChain) (rng : Rng) (srcs : List TextSource)
    (r : Datestamp × Datestamp) (minW maxW : Nat) (s : String)
    (h : generateInDateRange chain rng srcs r minW maxW = some s) :
    ∃ seq, generateSequenceE ((allEntries srcs).filter (inRangeB r)) minW maxW MAX_TRIES rng =
        some (some seq) ∧ s = seqToText seq chain.words := by
  simp only [generateInDateRange] at h
  split at h
  · simp at h
  · split at h
    · rename_i r2 heq
      rcases r2 with _ | seq
      · simp at h
      · exact ⟨seq, heq, by simpa using h.symm⟩
    · simp at h

/-! ### Lemmas about `seq_to_text` -/

theorem filterMap_length_of_isSome {α β : Type} (f : α → Option β) (l : List α)
    (h : ∀ a ∈ l, (f a).isSome = true) : (l.filterMap f).length = l.length := by
  induction l with
  | nil => rfl
  | cons a l ih =>
    rcases hfa : f a with _ | b
    · exact absurd (hfa ▸ h a (List.mem_cons_self a l)) (by simp)
    · simp [List.filterMap_cons, hfa,
        ih (fun x hx => h x (List.mem_cons_of_mem a hx))]

/-! ### Claim theorems -/

/-- C4: for every ingested text whose tokenization yields `L` token ids,
ingestion appends exactly `L - 2` records when `L ≥ 3` — the `k`-th record's
prefix being ids `k` and `k + 1` and its suffix id `k + 2`, in original
order — and zero records (without error) when `L < 3`. -/
theorem c4_window_coverage :
    ∀ text d entries words punct,
      (ingestIds text words).length = (tokenize text).length ∧
      ((ingestIds text words).length < 3 →
        (pushTextEntries text d entries words punct).1 = entries) ∧
      (3 ≤ (ingestIds text words).length →
        ∃ new, (pushTextEntries text d entries words punct).1 = entries ++ new ∧
          new.length = (ingestIds text words).length - 2 ∧
          ∀ k a b c, (ingestIds text words).get? k = some a →
            (ingestIds text words).get? (k + 1) = some b →
            (ingestIds text words).get? (k + 2) = some c →
            ∃ e, new.get? k = some e ∧ e.pfx.word_idxs = (a, b) ∧
              e.suffix.word_idx = c ∧ e.datestamp = d) := by
  intro text d entries words punct
  obtain ⟨hvocab, hshort, hlong⟩ := pushTextEntries_spec text d entries words punct
  refine ⟨internWords_length _ _, hshort, ?_⟩
  intro h3
  obtain ⟨new, hnew, hlen, hget⟩ := hlong h3
  refine ⟨new, hnew, hlen, ?_⟩
  intro k a b c ha hb hc
  obtain ⟨st2, hk⟩ := hget k a b c ha hb hc
  exact ⟨_, hk, rfl, rfl, rfl⟩

/-- C4 witness: the text `"a b c d"` has 4 token ids and ingestion appends
exactly 2 records, with the stated id layout. -/
theorem c4_window_coverage_witness :
    ((ingestIds "a b c d" []).length < 3 →
      (pushTextEntries "a b c d" ⟨0, 0⟩ [] [] true).1 = []) ∧
    (3 ≤ (ingestIds "a b c d" []).length) ∧
    (∃ new, (pushTextEntries "a b c d" ⟨0, 0⟩ [] [] true).1 = [] ++ new ∧
      new.length = (ingestIds "a b c d" []).length - 2 ∧
      ∀ k a b c, (ingestIds "a b c d" []).get? k = some a →
        (ingestIds "a b c d" []).get? (k + 1) = some b →
        (ingestIds "a b c d" []).get? (k + 2) = some c →
        ∃ e, new.get? k = some e ∧ e.pfx.word_idxs = (a, b) ∧
          e.suffix.word_idx = c ∧ e.datestamp = (⟨0, 0⟩ : Datestamp)) :=
  ⟨(c4_window_coverage "a b c d" ⟨0, 0⟩ [] [] true).2.1, by decide,
   (c4_window_coverage "a b c d" ⟨0, 0⟩ [] [] true).2.2 (by decide)⟩

/-- C1 counterexample: ingesting the text `"a b c"` through `append_text`
(plain-text mode) produces exactly one record — from the final window — and
that record is NOT terminal (its suffix word `"c"` carries no sentence
punctuation); ingesting the same text as a message (message-dump mode)
produces a record that IS terminal even though its suffix word does not end
with `.`, `!` or `?`.  Both halves of the claim's mode assignment are
therefore false on the code: the two modes are swapped. -/
theorem c1_counterexample :
    ((appendText (MarkovChain.mk [] []) "a b c" ["n"] ⟨0, 0⟩).sources.map
      (fun s => s.entries.map (fun e => e.suffix.is_terminal))) = [[false]] ∧
    ((appendMessage (MarkovChain.mk [] [])
        (ExtractedMessage.mk ["n"] ⟨0, 0⟩ "a b c")).sources.map
      (fun s => s.entries.map (fun e => e.suffix.is_terminal))) = [[true]] ∧
    ((appendText (MarkovChain.mk [] []) "a b c" ["n"] ⟨0, 0⟩).words.get? 2) = some "c" ∧
    endsSentence "c" = false := by
  decide

/-- C1 (amended): terminal classification follows the ingestion mode with the
modes assigned as the code assigns them: `append_text` (plain-text mode)
marks a record terminal iff the resolved text of its suffix word ends with
`.`, `!` or `?`; `append_message_dump` (message-dump mode) marks a record
terminal iff its window equals, as a value, the final window of that
message's token-id sequence. -/
theorem c1_terminal_modes :
    (∀ chain text names d, appendText chain text names d =
      chain.appendBody text names d true) ∧
    (∀ chain msg, appendMessage chain msg =
      chain.appendBody msg.body msg.names msg.datestamp false) ∧
    (∀ text d entries words (punct : Bool), 3 ≤ (ingestIds text words).length →
      ∃ new, (pushTextEntries text d entries words punct).1 = entries ++ new ∧
        ∀ k a b c, (ingestIds text words).get? k = some a →
          (ingestIds text words).get? (k + 1) = some b →
          (ingestIds text words).get? (k + 2) = some c →
          ∃ e, new.get? k = some e ∧ e.suffix.word_idx = c ∧
            e.suffix.is_terminal =
              (if punct then endsSentence (((ingestVocab text words).get? c).getD "")
               else decide ([a, b, c] =
                 (ingestIds text words).drop ((ingestIds text words).length - 3)))) := by
  refine ⟨fun _ _ _ _ => rfl, fun _ _ => rfl, ?_⟩
  intro text d entries words punct h3
  obtain ⟨_, _, hlong⟩ := pushTextEntries_spec text d entries words punct
  obtain ⟨new, hnew, _, hget⟩ := hlong h3
  refine ⟨new, hnew, ?_⟩
  intro k a b c ha hb hc
  obtain ⟨st2, hk⟩ := hget k a b c ha hb hc
  exact ⟨_, hk, rfl, rfl⟩

/-- C1 witness: the amended classification evaluated on the text `"a b. c"`
in plain-text mode. -/
theorem c1_terminal_modes_witness :
    3 ≤ (ingestIds "a b. c" []).length ∧
    (∃ new, (pushTextEntries "a b. c" ⟨0, 0⟩ [] [] true).1 = [] ++ new ∧
      ∀ k a b c, (ingestIds "a b. c" []).get? k = some a →
        (ingestIds "a b. c" []).get? (k + 1) = some b →
        (ingestIds "a b. c" []).get? (k + 2) = some c →
        ∃ e, new.get? k = some e ∧ e.suffix.word_idx = c ∧
          e.suffix.is_terminal =
            (if true then endsSentence (((ingestVocab "a b. c" []).get? c).getD "")
             else decide ([a, b, c] =
               (ingestIds "a b. c" []).drop ((ingestIds "a b. c" []).length - 3)))) :=
  ⟨by decide, c1_terminal_modes.2.2 "a b. c" ⟨0, 0⟩ [] [] true (by decide)⟩

/-- C5: source resolution — records go into the first existing source whose
alias set intersects the candidate names (that source's alias set left
unchanged and earlier sources not matching); if none intersects, a new source
is appended whose alias set is exactly the candidate names with duplicates
removed, in insertion order. -/
theorem c5_source_resolution :
    (∀ s names, srcMatches s names = true ↔ ∃ n ∈ names, n ∈ s.names) ∧
    (∀ sources names, (∃ s ∈ sources, srcMatches s names = true) →
      (sourceByNames sources names).1 = sources ∧
      (∃ s, sources.get? (sourceByNames sources names).2 = some s ∧
        srcMatches s names = true) ∧
      (∀ j s2, j < (sourceByNames sources names).2 → sources.get? j = some s2 →
        srcMatches s2 names = false)) ∧
    (∀ sources names, (∀ s ∈ sources, srcMatches s names = false) →
      sourceByNames sources names =
        (sources ++ [TextSource.mk (fromIter names) []], sources.length)) ∧
    (∀ names, (fromIter names).Nodup ∧ (∀ n, n ∈ fromIter names ↔ n ∈ names)) ∧
    (∀ (chain : MarkovChain) (text : String) (names : List String)
        (d : Datestamp) (punct : Bool),
      ((chain.appendBody text names d punct).sources.map (fun s => s.names)) =
        ((sourceByNames chain.sources names).1.map (fun s => s.names))) := by
  refine ⟨?_, sourceByNames_found, sourceByNames_notfound,
    fun names => ⟨fromIter_nodup names, fromIter_mem names⟩, ?_⟩
  · intro s names
    simp [srcMatches, List.any_eq_true]
  · intro chain text names d punct
    simp only [MarkovChain.appendBody]
    apply list_map_set_eq
    intro s hs
    rw [List.get?_eq_getElem?] at hs
    simp [hs]

/-- C5 witness: appending with aliases `["b", "b"]` over a model whose only
source has alias set `["a"]` creates a new second source with the
deduplicated alias set `["b"]`. -/
theorem c5_source_resolution_witness :
    (∀ s ∈ [TextSource.mk ["a"] []], srcMatches s ["b", "b"] = false) ∧
    sourceByNames [TextSource.mk ["a"] []] ["b", "b"] =
      ([TextSource.mk ["a"] [], TextSource.mk (fromIter ["b", "b"]) []], 1) :=
  ⟨by decide, c5_source_resolution.2.2.1 [TextSource.mk ["a"] []] ["b", "b"] (by decide)⟩

/-- C7: vocabulary invariants — interning the same word twice returns the same
id and leaves the vocabulary unchanged; a fresh word gets the next sequential
id (`= current length`, so first-occurrence order from 0); previously
assigned ids keep resolving to the same word after any further interning; two
equal tokens of one ingested text receive equal ids; and ingestion never
interns the empty string. -/
theorem c7_vocabulary :
    (∀ w words, insertFull w ((insertFull w words).2) = insertFull w words) ∧
    (∀ w words, w ∉ words → (insertFull w words).1 = words.length ∧
      (insertFull w words).2 = words ++ [w]) ∧
    (∀ ts words i w, words.get? i = some w →
      ((internWords ts words).2).get? i = some w) ∧
    (∀ ts words j k t, ts.get? j = some t → ts.get? k = some t →
      ((internWords ts words).1).get? j = ((internWords ts words).1).get? k) ∧
    (∀ (chain : MarkovChain) (text : String) (names : List String)
        (d : Datestamp) (punct : Bool), "" ∉ chain.words →
      "" ∉ (chain.appendBody text names d punct).words) := by
  refine ⟨?_, ?_, ?_, ?_, ?_⟩
  · intro w words
    by_cases h : w ∈ words
    · simp [insertFull, h]
    · have hmem : w ∈ words ++ [w] := by simp
      simp [insertFull, h, hmem, internIdx_append_self w words h]
  · intro w words h
    simp [insertFull, h]
  · intro ts words i w h
    obtain ⟨ext, hext⟩ := internWords_append_only ts words
    rw [hext]
    rw [List.get?_append (List.get?_eq_some.mp h).1]
    exact h
  · intro ts words j k t hj hk
    have h1 := internWords_get ts words j t hj
    have h2 := internWords_get ts words k t hk
    rw [h1.1, h2.1]
  · intro chain text names d punct h
    have hw : (chain.appendBody text names d punct).words =
        (internWords (tokenize text) chain.words).2 := by
      simp only [MarkovChain.appendBody]
      exact (pushTextEntries_spec text d _ chain.words punct).1
    rw [hw]
    exact internWords_not_mem (tokenize text) chain.words ""
      h (fun t ht => tokenize_ne_empty text t ht)

/-- C7 witness: interning the fresh word `"x"` over the vocabulary `["y"]`
assigns the next sequential id 1 and appends it. -/
theorem c7_vocabulary_witness :
    ("x" ∉ ["y"]) ∧
    (insertFull "x" ["y"]).1 = (["y"] : List String).length ∧
    (insertFull "x" ["y"]).2 = ["y"] ++ ["x"] :=
  ⟨by decide, c7_vocabulary.2.1 "x" ["y"] (by decide)⟩

/-- Invariant of the message-dump fold: while every flushed body is empty the
chain is never modified and the accumulated body stays empty. -/
theorem foldDump_inv (events : List MessageEvent) :
    ∀ chain msg, msg.body = "" →
      (∀ b, MessageEvent.bodyPartExtracted b ∈ events → b = "") →
      (events.foldl foldStep (chain, msg)).1 = chain ∧
      (events.foldl foldStep (chain, msg)).2.body = "" := by
  induction events with
  | nil => intro chain msg h _; exact ⟨rfl, h⟩
  | cons e es ih =>
    intro chain msg hbody hev
    have hev' : ∀ b, MessageEvent.bodyPartExtracted b ∈ es → b = "" :=
      fun b hb => hev b (List.mem_cons_of_mem _ hb)
    rw [List.foldl_cons]
    cases e with
    | start n =>
      cases n with
      | zero =>
        have hstep : foldStep (chain, msg) (MessageEvent.start 0) =
            (chain, emptyMessage) := by
          simp [foldStep, hbody]
        rw [hstep]
        exact ih chain emptyMessage rfl hev'
      | succ n => exact ih chain msg hbody hev'
    | fullNameExtracted nm => exact ih chain _ hbody hev'
    | shortNameExtracted nm => exact ih chain _ hbody hev'
    | dateExtracted d0 => exact ih chain _ hbody hev'
    | bodyPartExtracted b =>
      have hb : b = "" := hev b (List.mem_cons_self _ _)
      have hbody2 : (msg.body ++ b) = "" := by rw [hbody, hb]; rfl
      exact ih chain _ hbody2 hev'
    | other => exact ih chain msg hbody hev'

/-- The shared append body on a text of fewer than 3 tokens: the source is
still resolved (or created) and the words are still interned, but the
resolved source's entry list is unchanged. -/
theorem appendBody_short (chain : MarkovChain) (text : String) (names : List String)
    (d : Datestamp) (punct : Bool) (hlen : (tokenize text).length < 3) :
    chain.appendBody text names d punct =
      MarkovChain.mk (internWords (tokenize text) chain.words).2
        (sourceByNames chain.sources names).1 := by
  have hids : (internWords (tokenize text) chain.words).1.length < 3 := by
    rw [internWords_length]; exact hlen
  simp only [MarkovChain.appendBody]
  obtain ⟨hvocab, hshort, _⟩ := pushTextEntries_spec text d
    (((sourceByNames chain.sources names).1.get?
      (sourceByNames chain.sources names).2).getD (TextSource.mk [] [])).entries
    chain.words punct
  rw [hvocab, hshort hids]
  have heta : TextSource.mk
      (((sourceByNames chain.sources names).1.get?
        (sourceByNames chain.sources names).2).getD (TextSource.mk [] [])).names
      (((sourceByNames chain.sources names).1.get?
        (sourceByNames chain.sources names).2).getD (TextSource.mk [] [])).entries =
      ((sourceByNames chain.sources names).1.get?
        (sourceByNames chain.sources names).2).getD (TextSource.mk [] []) := rfl
  rw [heta, list_set_getD_self _ _ _ (sourceByNames_lt _ _)]

/-- C10: a message whose accumulated body is empty is skipped entirely by the
message-dump fold — the model is left completely unchanged — whereas
`append_message` on a non-empty body of fewer than 3 tokens still resolves or
creates its source and interns its words but appends zero records. -/
theorem c10_empty_and_short_messages :
    (∀ chain events, (∀ b, MessageEvent.bodyPartExtracted b ∈ events → b = "") →
      appendMessageDump chain events = chain) ∧
    (∀ chain msg, msg.body ≠ "" → (tokenize msg.body).length < 3 →
      appendMessage chain msg =
        MarkovChain.mk (internWords (tokenize msg.body) chain.words).2
          (sourceByNames chain.sources msg.names).1) := by
  constructor
  · intro chain events hev
    obtain ⟨h1, h2⟩ := foldDump_inv events chain emptyMessage rfl hev
    unfold appendMessageDump
    simp only [h2, ne_eq, not_true_eq_false, if_false, ite_false]
    simpa using h1
  · intro chain msg _ hlen
    exact appendBody_short chain msg.body msg.names msg.datestamp false hlen

/-- C10 witness: a dump of one message with names and a date but no body
leaves the model unchanged, and a two-token message appends no records while
creating its source and interning its words. -/
theorem c10_empty_and_short_messages_witness :
    appendMessageDump (MarkovChain.mk [] [])
      [MessageEvent.start 0, MessageEvent.fullNameExtracted "A",
       MessageEvent.dateExtracted ⟨2018, 21⟩, MessageEvent.start 0] =
      MarkovChain.mk [] [] ∧
    appendMessage (MarkovChain.mk [] []) (ExtractedMessage.mk ["A"] ⟨2018, 21⟩ "hi there") =
      MarkovChain.mk (internWords (tokenize "hi there") []).2
        (sourceByNames [] ["A"]).1 :=
  ⟨c10_empty_and_short_messages.1 (MarkovChain.mk [] []) _
      (by intro b hb; simp at hb),
   c10_empty_and_short_messages.2 (MarkovChain.mk [] [])
      (ExtractedMessage.mk ["A"] ⟨2018, 21⟩ "hi there") (by decide) (by decide)⟩

/-- C2 counterexample: with `min_words = 1` and `max_words = 2`, a terminal
edge makes the buffer reach exactly `max_words = 2` words after its prefix,
and the suffix word is then still appended: the successful output `"a b c"`
has 3 words, exceeding `max_words`.  So a word IS appended after the buffer
has reached `max_words`, and a successful output can exceed `max_words`. -/
theorem c2_counterexample :
    generate c2Chain [0] c2Chain.sources 1 2 = some "a b c" ∧
    wordCount "a b c" = 3 ∧ ¬ wordCount "a b c" ≤ 2 := by
  decide

/-- C2 (amended): once the buffer has reached `max_words`, a word can still be
appended — exactly when the success condition (at least `min_words` words and
a terminal edge) holds, in which case the suffix word is appended and the
attempt succeeds; only otherwise is the attempt abandoned.  Consequently a
successful generation's id sequence is bounded by
`max (max_words + 2) 3` (`max_words - 1` words before the last prefix
extension, plus 2 prefix words, plus the suffix word; at least one window is
always emitted). -/
theorem c2_length_bound :
    ∀ (chain : MarkovChain) (rng : Rng) (srcs : List TextSource)
      (minW maxW : Nat) (s : String),
      (generate chain rng srcs minW maxW = some s →
        ∃ seq, s = seqToText seq chain.words ∧ seq.length ≤ max (maxW + 2) 3) ∧
      (∀ r, generateInDateRange chain rng srcs r minW maxW = some s →
        ∃ seq, s = seqToText seq chain.words ∧ seq.length ≤ max (maxW + 2) 3) := by
  intro chain rng srcs minW maxW s
  constructor
  · intro h
    obtain ⟨seq, hgse, hs⟩ := generate_some_elim chain rng srcs minW maxW s h
    obtain ⟨e2, pre, _, _, hout, _, hb⟩ := gse_success _ _ _ _ _ _ hgse
    refine ⟨seq, hs, ?_⟩
    rw [hout]
    simp only [List.length_append, List.length_cons, List.length_nil]
    omega
  · intro r h
    obtain ⟨seq, hgse, hs⟩ := gidr_some_elim chain rng srcs r minW maxW s h
    obtain ⟨e2, pre, _, _, hout, _, hb⟩ := gse_success _ _ _ _ _ _ hgse
    refine ⟨seq, hs, ?_⟩
    rw [hout]
    simp only [List.length_append, List.length_cons, List.length_nil]
    omega

/-- C2 witness: the length bound evaluated on the run of the counterexample
model (`max_words = 2`, output sequence of 3 ids ≤ max(2+2, 3)). -/
theorem c2_length_bound_witness :
    ∃ seq, "a b c" = seqToText seq c2Chain.words ∧ seq.length ≤ max (2 + 2) 3 :=
  (c2_length_bound c2Chain [0] c2Chain.sources 1 2 "a b c").1 (by decide)

/-- C3 counterexample: a successful generation over a chain whose vocabulary
resolves none of the generated ids returns `some ""`, whose whitespace word
count 0 is below `min_words = 1` — the claimed word-count lower bound fails
when suffix ids do not resolve. -/
theorem c3_counterexample :
    generate c3Chain [0] c3Chain.sources 1 6 = some "" ∧
    wordCount "" = 0 ∧ ¬ 1 ≤ wordCount "" := by
  decide

/-- C3 (amended): every successful generation's id sequence ends in the
suffix word of a terminal pool edge, appended after a buffer of at least
`min_words` words, so the sequence holds at least `min_words + 1` ids; the
output is the space-join of the ids that resolve in the vocabulary, hence its
word count is at least `min_words` only when the ids resolve (it counts
`min_words + 1` resolved words when all of them do). -/
theorem c3_min_words :
    ∀ (chain : MarkovChain) (rng : Rng) (srcs : List TextSource)
      (minW maxW : Nat) (s : String),
      (generate chain rng srcs minW maxW = some s →
        ∃ seq e pre, s = seqToText seq chain.words ∧ e ∈ allEntries srcs ∧
          e.suffix.is_terminal = true ∧ seq = pre ++ [e.suffix.word_idx] ∧
          minW ≤ pre.length ∧ minW + 1 ≤ seq.length ∧
          ((∀ i ∈ seq, (chain.words.get? i).isSome = true) →
            minW + 1 ≤ (seq.filterMap (fun i => chain.words.get? i)).length)) ∧
      (∀ r, generateInDateRange chain rng srcs r minW maxW = some s →
        ∃ seq e pre, s = seqToText seq chain.words ∧ e ∈ allEntries srcs ∧
          e.suffix.is_terminal = true ∧ seq = pre ++ [e.suffix.word_idx] ∧
          minW ≤ pre.length ∧ minW + 1 ≤ seq.length ∧
          ((∀ i ∈ seq, (chain.words.get? i).isSome = true) →
            minW + 1 ≤ (seq.filterMap (fun i => chain.words.get? i)).length)) := by
  intro chain rng srcs minW maxW s
  constructor
  · intro h
    obtain ⟨seq, hgse, hs⟩ := generate_some_elim chain rng srcs minW maxW s h
    obtain ⟨e2, pre, hmem, hterm, hout, hmin, _⟩ := gse_success _ _ _ _ _ _ hgse
    have hlen : minW + 1 ≤ seq.length := by
      rw [hout]
      simp only [List.length_append, List.length_cons, List.length_nil]
      omega
    refine ⟨seq, e2, pre, hs, hmem, hterm, hout, hmin, hlen, ?_⟩
    intro hres
    rw [filterMap_length_of_isSome _ _ hres]
    exact hlen
  · intro r h
    obtain ⟨seq, hgse, hs⟩ := gidr_some_elim chain rng srcs r minW maxW s h
    obtain ⟨e2, pre, hmem, hterm, hout, hmin, _⟩ := gse_success _ _ _ _ _ _ hgse
    have hmem2 : e2 ∈ allEntries srcs := (List.mem_filter.mp hmem).1
    have hlen : minW + 1 ≤ seq.length := by
      rw [hout]
      simp only [List.length_append, List.length_cons, List.length_nil]
      omega
    refine ⟨seq, e2, pre, hs, hmem2, hterm, hout, hmin, hlen, ?_⟩
    intro hres
    rw [filterMap_length_of_isSome _ _ hres]
    exact hlen

/-- C3 witness: the amended bound evaluated on a fully-resolvable model with
`min_words = 1`. -/
theorem c3_min_words_witness :
    ∃ seq e pre, "a b c" = seqToText seq c3wChain.words ∧
      e ∈ allEntries c3wChain.sources ∧
      e.suffix.is_terminal = true ∧ seq = pre ++ [e.suffix.word_idx] ∧
      1 ≤ pre.length ∧ 1 + 1 ≤ seq.length ∧
      ((∀ i ∈ seq, (c3wChain.words.get? i).isSome = true) →
        1 + 1 ≤ (seq.filterMap (fun i => c3wChain.words.get? i)).length) :=
  (c3_min_words c3wChain [0] c3wChain.sources 1 6 "a b c").1 (by decide)

/-- C6: the date filter keeps exactly the records whose datestamp lies within
the inclusive bounds under the lexicographic `(year, day)` order; a range
excluding every record makes `generate_in_date_range` return nothing, and a
range covering every record makes it behave identically to `generate` with
the same random source, sources, and bounds. -/
theorem c6_date_filter :
    ∀ (chain : MarkovChain) (rng : Rng) (srcs : List TextSource)
      (r : Datestamp × Datestamp) (minW maxW : Nat),
      (∀ e : ChainEntry, inRangeB r e = true ↔
        ((r.1.year < e.datestamp.year ∨
            (r.1.year = e.datestamp.year ∧ r.1.day ≤ e.datestamp.day)) ∧
         (e.datestamp.year < r.2.year ∨
            (e.datestamp.year = r.2.year ∧ e.datestamp.day ≤ r.2.day)))) ∧
      (∀ e, e ∈ (allEntries srcs).filter (inRangeB r) ↔
        e ∈ allEntries srcs ∧ inRangeB r e = true) ∧
      ((∀ e ∈ allEntries srcs, inRangeB r e = false) →
        generateInDateRange chain rng srcs r minW maxW = none) ∧
      ((∀ e ∈ allEntries srcs, inRangeB r e = true) →
        generateInDateRange chain rng srcs r minW maxW =
          generate chain rng srcs minW maxW) := by
  intro chain rng srcs r minW maxW
  refine ⟨?_, fun e => List.mem_filter, ?_, ?_⟩
  · intro e
    simp [inRangeB, dsLe]
  · intro h
    have hnil : (allEntries srcs).filter (inRangeB r) = [] :=
      List.filter_eq_nil_iff.mpr (fun e he => by simp [h e he])
    simp [generateInDateRange, hnil]
  · intro h
    have hself : (allEntries srcs).filter (inRangeB r) = allEntries srcs :=
      List.filter_eq_self.mpr h
    simp only [generateInDateRange, generate, hself]

/-- C6 witness: over a model whose only record is stamped (2018, 21), the
range (2019, 0)–(2019, 5) yields nothing and the covering range
(2018, 1)–(2018, 30) behaves identically to the unfiltered `generate`. -/
theorem c6_date_filter_witness :
    generateInDateRange c6Chain [0] c6Chain.sources (⟨2019, 0⟩, ⟨2019, 5⟩) 1 6 = none ∧
    generateInDateRange c6Chain [0] c6Chain.sources (⟨2018, 1⟩, ⟨2018, 30⟩) 1 6 =
      generate c6Chain [0] c6Chain.sources 1 6 :=
  ⟨(c6_date_filter c6Chain [0] c6Chain.sources (⟨2019, 0⟩, ⟨2019, 5⟩) 1 6).2.2.1
      (by decide),
   (c6_date_filter c6Chain [0] c6Chain.sources (⟨2018, 1⟩, ⟨2018, 30⟩) 1 6).2.2.2
      (by decide)⟩

/-- C8: a word id that fails to resolve in the vocabulary is silently omitted
from `seq_to_text`'s output (the remaining words joined with single spaces),
and the spec's six-word example — three chained records whose terminal suffix
id 6 is unresolvable, `min_words = 5`, `max_words = 6`, a random source
selecting the records in chained order — generates exactly
`"сегодня у меня депрессия с собаками"`. -/
theorem c8_unresolvable_dropped :
    (∀ (words : List String) (seq : List Nat) (i : Nat), words.get? i = none →
      seqToText (seq ++ [i]) words = seqToText seq words) ∧
    c8Chain.words.get? 6 = none ∧
    generate c8Chain [0, 0, 0] c8Chain.sources 5 6 =
      some "сегодня у меня депрессия с собаками" := by
  refine ⟨?_, by decide, by decide⟩
  intro words seq i h
  rw [List.get?_eq_getElem?] at h
  simp [seqToText, List.filterMap_append, h]

/-- C8 witness: dropping the unresolvable id 6 of the example model leaves
the resolved text unchanged. -/
theorem c8_unresolvable_dropped_witness :
    c8Chain.words.get? 6 = none ∧
    seqToText ([0] ++ [6]) c8Chain.words = seqToText [0] c8Chain.words :=
  ⟨by decide, c8_unresolvable_dropped.1 c8Chain.words [0] 6 (by decide)⟩

/-- C9: with a non-empty edge pool the retry loop's initial uniform draw can
never fail, so `generate_sequence` never reaches its panic branch; both
`generate` and `generate_in_date_range` return `None` outright when their
(filtered) pool is empty and otherwise run the retry loop on a non-empty
pool, making generation total. -/
theorem c9_no_panic :
    (∀ (edges : List ChainEntry) (minW maxW tries : Nat) (rng : Rng),
      edges ≠ [] → ∃ r, generateSequenceE edges minW maxW tries rng = some r) ∧
    (∀ (chain : MarkovChain) (rng : Rng) (srcs : List TextSource) (minW maxW : Nat),
      (allEntries srcs = [] → generate chain rng srcs minW maxW = none) ∧
      (allEntries srcs ≠ [] →
        ∃ r, generateSequenceE (allEntries srcs) minW maxW MAX_TRIES rng = some r ∧
          generate chain rng srcs minW maxW =
            r.map (fun seq => seqToText seq chain.words))) ∧
    (∀ (chain : MarkovChain) (rng : Rng) (srcs : List TextSource)
        (dr : Datestamp × Datestamp) (minW maxW : Nat),
      ((allEntries srcs).filter (inRangeB dr) = [] →
        generateInDateRange chain rng srcs dr minW maxW = none) ∧
      ((allEntries srcs).filter (inRangeB dr) ≠ [] →
        ∃ r, generateSequenceE ((allEntries srcs).filter (inRangeB dr))
            minW maxW MAX_TRIES rng = some r ∧
          generateInDateRange chain rng srcs dr minW maxW =
            r.map (fun seq => seqToText seq chain.words))) := by
  refine ⟨fun edges minW maxW tries rng hne => gse_no_panic edges minW maxW hne tries rng,
    ?_, ?_⟩
  · intro chain rng srcs minW maxW
    constructor
    · intro h
      simp [generate, h]
    · intro hne
      obtain ⟨r, hr⟩ := gse_no_panic (allEntries srcs) minW maxW hne MAX_TRIES rng
      refine ⟨r, hr, ?_⟩
      have hempty : (allEntries srcs).isEmpty = false := by
        simpa [List.isEmpty_iff] using hne
      simp only [generate, hempty, Bool.false_eq_true, if_false, hr]
  · intro chain rng srcs dr minW maxW
    constructor
    · intro h
      simp [generateInDateRange, h]
    · intro hne
      obtain ⟨r, hr⟩ :=
        gse_no_panic ((allEntries srcs).filter (inRangeB dr)) minW maxW hne MAX_TRIES rng
      refine ⟨r, hr, ?_⟩
      have hempty : ((allEntries srcs).filter (inRangeB dr)).isEmpty = false := by
        simpa [List.isEmpty_iff] using hne
      simp only [generateInDateRange, hempty, Bool.false_eq_true, if_false, hr]

/-- C9 witness: the no-panic guarantee evaluated on a one-record pool. -/
theorem c9_no_panic_witness :
    ([c9Entry] ≠ ([] : List ChainEntry)) ∧
    ∃ r, generateSequenceE [c9Entry] 1 2 20 [0] = some r :=
  ⟨by decide, c9_no_panic.1 [c9Entry] 1 2 20 [0] (by decide)⟩
